import Mathlib

set_option maxRecDepth 8000

/-!
Verification of the cli53 acceptance-test harness step definitions
(`internal/features/step_definitions.go`), shallowly embedded in Lean.
Go strings over the ASCII data handled here are modelled as `List Char`;
the external route53 provider and the external binary are modelled as
oracles (functions supplied as parameters), and the provider calls,
warnings and fatal logs the code performs are recorded as explicit events.
-/

/-- The space character (code 32); Go splits command lines on it. -/
def spc : Char := Char.ofNat 32

/-- The single-quote character (code 39). -/
def squote : Char := Char.ofNat 39

/-- The double-quote character (code 34). -/
def dquote : Char := Char.ofNat 34

/-- The horizontal tab character (code 9). -/
def tabCh : Char := Char.ofNat 9

/-- The newline character (code 10). -/
def nlCh : Char := Char.ofNat 10

/-- Go `strings.Split(s, sep)` for a one-character separator: splits around
every occurrence of `sep`, keeping empty fragments, and maps the empty
string to one empty fragment. -/
def splitChar (sep : Char) : List Char → List (List Char)
  | [] => [[]]
  | c :: rest =>
    if c = sep then [] :: splitChar sep rest
    else
      match splitChar sep rest with
      | [] => [[c]]
      | f :: fs => (c :: f) :: fs

/-- Go `strings.Contains(l, pat)`: `pat` occurs as a contiguous substring. -/
def hasSub (pat : List Char) : List Char → Bool
  | [] => pat.isEmpty
  | c :: rest => pat.isPrefixOf (c :: rest) || hasSub pat rest

/-- True exactly on the two characters Go tests for with
`strings.HasPrefix(i, "'") || strings.HasPrefix(i, "\"")`. -/
def isQuoteChar (c : Char) : Bool := decide (c = squote ∨ c = dquote)

/-- Go `strings.HasSuffix(i, inquote)` for the one-character `inquote`. -/
def endsWithChar (q : Char) (i : List Char) : Bool := decide (i.getLast? = some q)

/-- Loop state of Go `safeSplit`: the locals `result`, `inquote` (always the
empty string or a one-character string, modelled as `Option Char`) and
`block`. -/
structure TokSt where
  result : List (List Char)
  inquote : Option Char
  block : List Char

/-- One iteration of the `safeSplit` loop body over fragment `i`. -/
def tokStep (st : TokSt) (i : List Char) : TokSt :=
  match st.inquote with
  | none =>
    match i with
    | [] => { st with result := st.result ++ [i] }
    | c :: _ =>
      if isQuoteChar c then
        { st with inquote := some c, block := i.drop 1 ++ [spc] }
      else { st with result := st.result ++ [i] }
  | some q =>
    if endsWithChar q i then
      { result := st.result ++ [st.block ++ i.dropLast], inquote := none, block := [] }
    else { st with block := st.block ++ i ++ [spc] }

/-- Go `safeSplit`, acting on the list of space-separated fragments. -/
def safeSplitFrags (frags : List (List Char)) : List (List Char) :=
  (frags.foldl tokStep ⟨[], none, []⟩).result

/-- Go `safeSplit` on a whole command-line string. -/
def safeSplit (s : String) : List String :=
  (safeSplitFrags (splitChar spc s.toList)).map (fun l => String.mk l)

/-- Join fragments with single spaces. -/
def joinSp : List (List Char) → List Char
  | [] => []
  | [x] => x
  | x :: y :: rest => x ++ spc :: joinSp (y :: rest)

/-- Modelled from the spec (4.1 Argument Tokenizer contract), for the
refinement claims about `safeSplit`: plain fragments are emitted as tokens;
a fragment beginning with a quote character opens a quoted span whose
fragments accumulate, joined by single spaces, until a later fragment ends
with the same quote character, the opening and closing quote characters
being stripped; a span left open at the end of the input emits nothing. -/
def contractFrags : List (List Char) → Option (Char × List (List Char)) → List (List Char)
  | [], _ => []
  | i :: rest, none =>
    match i with
    | [] => [] :: contractFrags rest none
    | c :: _ =>
      if isQuoteChar c then contractFrags rest (some (c, [i.drop 1]))
      else i :: contractFrags rest none
  | i :: rest, some (q, parts) =>
    if endsWithChar q i then
      joinSp (parts ++ [i.dropLast]) :: contractFrags rest none
    else contractFrags rest (some (q, parts ++ [i]))

/-- The `inquote` state after scanning the given fragments. -/
def quoteState : List (List Char) → Option Char → Option Char
  | [], st => st
  | i :: rest, none =>
    match i with
    | [] => quoteState rest none
    | c :: _ => if isQuoteChar c then quoteState rest (some c) else quoteState rest none
  | i :: rest, some q =>
    if endsWithChar q i then quoteState rest none else quoteState rest (some q)

/-- Whether a token's first character is a quote character. -/
def headQuote : List Char → Bool
  | [] => false
  | c :: _ => isQuoteChar c

/-- The command line of the claim about well-formed inputs: run 'a b' c. -/
def exC3str : String :=
  String.mk ("run ".toList ++ squote :: "a b".toList ++ squote :: " c".toList)

/-- An input with an unterminated quoted span: a 'b c. -/
def exC2str : String :=
  String.mk ("a ".toList ++ squote :: "b c".toList)

/-- A fully quoted single word followed by another token: 'a' b. -/
def exC9str : String :=
  String.mk (squote :: "a".toList ++ squote :: " b".toList)

/-- The origin-directive marker tested with `strings.HasPrefix(line, "$ORIGIN")`. -/
def originPre : List Char := String.toList "$ORIGIN"

/-- The space-delimited NS type token tested with `strings.Contains(line, " NS ")`. -/
def nsPat : List Char := String.toList " NS "

/-- The space-delimited SOA type token tested with `strings.Contains(line, " SOA ")`. -/
def soaPat : List Char := String.toList " SOA "

/-- Tab normalization of `prepareZoneFile`: Go `strings.Replace(s, "\t", " ", -1)`
replaces each tab character by a space. -/
def detab (c : Char) : Char := if c = tabCh then spc else c

/-- The keep test `prepareZoneFile` applies to each line: lines starting
with the origin directive are skipped; unless `includeAuth`, lines
containing a space-delimited NS or SOA token are skipped. -/
def keepLine (includeAuth : Bool) (line : List Char) : Bool :=
  !(originPre.isPrefixOf line) &&
    (includeAuth || (!(hasSub nsPat line) && !(hasSub soaPat line)))

/-- Go `prepareZoneFile`: tab-normalizes the blob, splits it on newlines and
collects the kept lines into a set (the Go `map[string]bool`). -/
def prepareZoneFile (b : List Char) (includeAuth : Bool) : Finset (List Char) :=
  ((splitChar nlCh (b.map detab)).filter (keepLine includeAuth)).toFinset

/-- Diff messages emitted by `compareDomains`: Go formats the two distinct
strings Expected record '%s' missing and Unexpected record '%s' present,
in which only the record text varies. -/
inductive ZMsg
  | missing (r : List Char)
  | unexpected (r : List Char)
deriving DecidableEq

/-- First loop of Go `compareDomains`: iterate the expected records, deleting
each match from the working copy of the actual records; returns the records
reported missing (in iteration order) and the remaining working copy. -/
def diffLoop : List (List Char) → List (List Char) → List (List Char) × List (List Char)
  | [], mactual => ([], mactual)
  | r :: rest, mactual =>
    if r ∈ mactual then diffLoop rest (mactual.erase r)
    else
      let p := diffLoop rest mactual
      (r :: p.1, p.2)

/-- Go `compareDomains` after `prepareZoneFile`: the two Go maps are passed
as duplicate-free enumeration lists, because Go map iteration order is
unspecified; the theorems below quantify over all such enumerations. -/
def compareDomains (mexpected mactual : List (List Char)) : List ZMsg :=
  ((diffLoop mexpected mactual).1).map ZMsg.missing ++
    ((diffLoop mexpected mactual).2).map ZMsg.unexpected

/-- Provider calls and log lines performed by the harness, recorded as events. -/
inductive REvent
  | listRecordsCall (id : String)
  | listZonesCall
  | changeCall (id : String)
  | deleteZoneCall (id : String)
  | warnMsg (id : String)
  | fatalMsg (id : String)
deriving DecidableEq

/-- The route53 provider as seen by the harness: the outcome of listing a
zone's record-set types, of submitting a delete change batch, and of
deleting the zone, plus the (name, id) pairs returned by ListHostedZones. -/
structure Route53 where
  listRecords : String → Except String (List String)
  changeErr : String → Option String
  deleteErr : String → Option String
  zones : List (String × String)

/-- Whether a listing call succeeded (Go: `fatalIfErr` does not fire). -/
def listOk (x : Except String (List String)) : Bool :=
  match x with
  | .ok _ => true
  | .error _ => false

/-- Go `cleanupDomain`: lists the zone's record sets (a listing error is
fatal), batches a DELETE change for every record whose type is neither NS
nor SOA, submits the batch if non-empty, then deletes the zone; a failure
of the change call or of the zone deletion is only warned about. Returns
the event trace and whether a fatal abort occurred. -/
def cleanupDomain (r53 : Route53) (id : String) : List REvent × Bool :=
  match r53.listRecords id with
  | .error _ => ([REvent.listRecordsCall id, REvent.fatalMsg id], true)
  | .ok rrsets =>
    let changes := rrsets.filter (fun t => decide (t ≠ "NS" ∧ t ≠ "SOA"))
    let evChange :=
      if changes.length > 0 then
        REvent.changeCall id ::
          (match r53.changeErr id with
           | some _ => [REvent.warnMsg id]
           | none => [])
      else []
    let evDelete :=
      REvent.deleteZoneCall id ::
        (match r53.deleteErr id with
         | some _ => [REvent.warnMsg id]
         | none => [])
    (REvent.listRecordsCall id :: (evChange ++ evDelete), false)

/-- The loop of the After hook over the registered cleanup ids; a fatal
abort inside `cleanupDomain` terminates the process, so no later id is
processed. Returns the event trace and whether the process aborted. -/
def runCleanupList (r53 : Route53) : List String → List REvent × Bool
  | [] => ([], false)
  | id :: rest =>
    let p := cleanupDomain r53 id
    if p.2 then (p.1, true)
    else
      let q := runCleanupList r53 rest
      (p.1 ++ q.1, q.2)

/-- Go After hook (the teardown routine): if any ids are registered, runs
`cleanupDomain` on each and then resets `cleanupIds` to the empty slice.
Returns the event trace, the final `cleanupIds`, and whether the process
aborted fatally (in which case the registry state is the moot pre-reset
value). -/
def afterHook (r53 : Route53) (cleanupIds : List String) :
    List REvent × List String × Bool :=
  if cleanupIds.length > 0 then
    let p := runCleanupList r53 cleanupIds
    if p.2 then (p.1, cleanupIds, true) else (p.1, [], false)
  else ([], cleanupIds, false)

/-- Go `domainId`: lists all hosted zones and returns the id of the first
zone whose name is the sought name with a trailing dot, else the empty
string. -/
def domainId (zones : List (String × String)) (name : String) : String :=
  match zones.find? (fun z => z.1 = name ++ ".") with
  | some z => z.2
  | none => ""

/-- Step body of Then the domain is deleted: looks the (already
substituted) name up via `domainId`; on confirmed absence it resets
`cleanupIds` to the empty slice; if the zone is still found it reports a
scenario failure and re-appends the found id. Returns the new
`cleanupIds`, whether a scenario failure was reported, and the provider
calls made. -/
def thenDomainDeleted (zones : List (String × String)) (name : String)
    (cleanupIds : List String) : List String × Bool × List REvent :=
  if domainId zones name = "" then ([], false, [REvent.listZonesCall])
  else (cleanupIds ++ [domainId zones name], true, [REvent.listZonesCall])

/-- Outcome of one external command invocation: the combined output
captured by `CombinedOutput` and whether it returned an error (non-zero
exit). -/
structure RunResult where
  out : String
  failed : Bool

/-- Step body of When I run: tokenizes the (already substituted) command
with `safeSplit`, invokes the external binary (modelled as a function from
the argument list to a `RunResult`), and assigns `runOutput` only when the
invocation succeeded; on failure the step reports a scenario failure and
leaves `runOutput` unchanged. Returns the new `runOutput` and whether a
scenario failure was reported. -/
def whenIRun (execBin : List String → RunResult) (cmd : String)
    (runOutput : String) : String × Bool :=
  if (execBin (safeSplit cmd)).failed then (runOutput, true)
  else ((execBin (safeSplit cmd)).out, false)

/-- Fragments of an input that opens a quote and never closes it: a 'b. -/
def fragsC2 : List (List Char) := [['a'], [squote, 'b']]

/-- Further fragments that never close the open single quote. -/
def extraC2 : List (List Char) := [['c'], ['d']]

/-- Zone blob of the normalizer claim: an origin directive, one NS record
line and one A record line, with no trailing newline. -/
def blobC4 : List Char :=
  String.toList "$ORIGIN example.com.\nexample.com. 9 IN NS n.example.com.\na.example.com. 9 IN A 1.2.3.4"

/-- The A record line of `blobC4`. -/
def aLineC4 : List Char := String.toList "a.example.com. 9 IN A 1.2.3.4"

/-- Zone blob probing the substring nature of the authority exclusion: a
TXT record whose data contains a space-delimited NS token, a tabbed NS
record, a line starting with NS, a line ending with NS and a line ending
with SOA. -/
def blobC10 : List Char :=
  String.toList "x. 9 IN TXT a NS b\ny.\t9\tIN\tNS\tn.\nNS y.\nd.y. NS\ns.y. SOA"

/-- The TXT line of `blobC10` (tab-free, contains a space-delimited NS). -/
def txtLineC10 : List Char := String.toList "x. 9 IN TXT a NS b"

/-- Record lines a, b and c of the diff-engine claim. -/
def aLine : List Char := ['a']

/-- Record line b. -/
def bLine : List Char := ['b']

/-- Record line c. -/
def cLine : List Char := ['c']

/-- Expected-side blob whose normalized set is the two lines a and b. -/
def eBlobC5 : List Char := String.toList "a\nb"

/-- Actual-side blob whose normalized set is the two lines b and c. -/
def aBlobC5 : List Char := String.toList "b\nc"

/-- A concrete provider: listing always succeeds with one A and one NS
record, change batches always fail, and deleting zone Z1 fails while other
zone deletions succeed. -/
def r53Ex : Route53 where
  listRecords := fun _ => Except.ok ["A", "NS"]
  changeErr := fun _ => some "throttled"
  deleteErr := fun id => if id = "Z1" then some "denied" else none
  zones := [("kept.example.com.", "Zkept")]

/-- A concrete hosted-zone listing with one zone. -/
def zonesEx : List (String × String) := [("kept.example.com.", "Zkept")]

/-- An external binary that always fails, with combined output new. -/
def execFailC8 : List String → RunResult := fun _ => { out := "new", failed := true }

/-- An external binary that always succeeds, with combined output new. -/
def execOkC8 : List String → RunResult := fun _ => { out := "new", failed := false }

theorem joinSp_snoc (parts : List (List Char)) (x : List Char) (h : parts ≠ []) :
    joinSp (parts ++ [x]) = joinSp parts ++ spc :: x := by
  induction parts with
  | nil => cases h rfl
  | cons a rest ih =>
    cases rest with
    | nil => simp [joinSp]
    | cons b rest2 =>
      simp only [List.cons_append, joinSp, List.append_eq]
      simp only [List.cons_append] at ih
      rw [ih (by simp)]
      simp [joinSp, List.append_assoc]

theorem foldl_tokStep_contract (frags : List (List Char)) :
    (∀ res, (frags.foldl tokStep ⟨res, none, []⟩).result = res ++ contractFrags frags none) ∧
    (∀ res q parts, parts ≠ [] →
      (frags.foldl tokStep ⟨res, some q, joinSp parts ++ [spc]⟩).result
        = res ++ contractFrags frags (some (q, parts))) := by
  induction frags with
  | nil => simp [contractFrags]
  | cons i rest ih =>
    constructor
    · intro res
      cases i with
      | nil =>
        simp only [List.foldl_cons, tokStep, contractFrags]
        rw [ih.1 (res ++ [[]])]
        simp
      | cons c tl =>
        by_cases hq : isQuoteChar c = true
        · simp only [List.foldl_cons, tokStep, contractFrags]
          rw [if_pos hq, if_pos hq]
          have hb : (c :: tl).drop 1 ++ [spc] = joinSp [(c :: tl).drop 1] ++ [spc] := by
            simp [joinSp]
          rw [hb, ih.2 res c [(c :: tl).drop 1] (by simp)]
        · simp only [List.foldl_cons, tokStep, contractFrags]
          rw [if_neg hq, if_neg hq]
          rw [ih.1 (res ++ [c :: tl])]
          simp
    · intro res q parts hp
      by_cases he : endsWithChar q i = true
      · simp only [List.foldl_cons, tokStep, contractFrags]
        rw [if_pos he, if_pos he]
        have hb : joinSp parts ++ [spc] ++ i.dropLast = joinSp (parts ++ [i.dropLast]) := by
          rw [joinSp_snoc parts _ hp]; simp
        rw [hb, ih.1 (res ++ [joinSp (parts ++ [i.dropLast])])]
        simp
      · simp only [List.foldl_cons, tokStep, contractFrags]
        rw [if_neg he, if_neg he]
        have hb : joinSp parts ++ [spc] ++ i ++ [spc] = joinSp (parts ++ [i]) ++ [spc] := by
          rw [joinSp_snoc parts _ hp]; simp
        rw [hb, ih.2 res q (parts ++ [i]) (by simp)]

theorem safeSplitFrags_eq_contract (frags : List (List Char)) :
    safeSplitFrags frags = contractFrags frags none := by
  have h := (foldl_tokStep_contract frags).1 []
  simpa [safeSplitFrags] using h

theorem foldl_tokStep_inquote (frags : List (List Char)) :
    ∀ st : TokSt, (frags.foldl tokStep st).inquote = quoteState frags st.inquote := by
  induction frags with
  | nil => intro st; simp [quoteState]
  | cons i rest ih =>
    intro st
    rw [List.foldl_cons, ih]
    cases hst : st.inquote with
    | none =>
      cases i with
      | nil => simp [tokStep, hst, quoteState]
      | cons c tl =>
        by_cases hq : isQuoteChar c = true
        · simp [tokStep, hst, hq, quoteState]
        · simp [tokStep, hst, hq, quoteState]
    | some q =>
      by_cases he : endsWithChar q i = true
      · simp [tokStep, hst, he, quoteState]
      · simp [tokStep, hst, he, quoteState]

theorem foldl_tokStep_no_close (extra : List (List Char)) :
    ∀ (st : TokSt) (q : Char), st.inquote = some q →
      (∀ i ∈ extra, endsWithChar q i = false) →
      (extra.foldl tokStep st).result = st.result := by
  induction extra with
  | nil => intro st q _ _; rfl
  | cons i rest ih =>
    intro st q hst hall
    have he : endsWithChar q i = false := hall i (by simp)
    rw [List.foldl_cons]
    have h1 : tokStep st i = { st with block := st.block ++ i ++ [spc] } := by
      simp [tokStep, hst, he]
    rw [h1, ih _ q (by simp [hst]) (fun j hj => hall j (List.mem_cons_of_mem _ hj))]

theorem tok_result_tokens (frags : List (List Char)) :
    ∀ st : TokSt,
      (∀ t ∈ st.result, headQuote t = false ∨ spc ∈ t) →
      (st.inquote.isSome = true → spc ∈ st.block) →
      ∀ t ∈ (frags.foldl tokStep st).result, headQuote t = false ∨ spc ∈ t := by
  induction frags with
  | nil => intro st h _ t ht; exact h t ht
  | cons i rest ih =>
    intro st hres hblk
    rw [List.foldl_cons]
    cases hst : st.inquote with
    | none =>
      cases i with
      | nil =>
        have hstep : tokStep st [] = ⟨st.result ++ [[]], none, st.block⟩ := by
          simp [tokStep, hst]
        rw [hstep]
        refine ih _ ?_ ?_
        · intro t ht
          rcases List.mem_append.1 ht with h | h
          · exact hres t h
          · left
            simp only [List.mem_singleton] at h
            simp [h, headQuote]
        · intro hs
          simp at hs
      | cons c tl =>
        by_cases hq : isQuoteChar c = true
        · have hstep : tokStep st (c :: tl) = ⟨st.result, some c, (c :: tl).drop 1 ++ [spc]⟩ := by
            simp [tokStep, hst, hq]
          rw [hstep]
          refine ih _ ?_ ?_
          · intro t ht
            exact hres t ht
          · intro _
            simp
        · have hstep : tokStep st (c :: tl) = ⟨st.result ++ [c :: tl], none, st.block⟩ := by
            simp [tokStep, hst, hq]
          rw [hstep]
          refine ih _ ?_ ?_
          · intro t ht
            rcases List.mem_append.1 ht with h | h
            · exact hres t h
            · left
              simp only [List.mem_singleton] at h
              simp [h, headQuote, hq]
          · intro hs
            simp at hs
    | some q =>
      have hb : spc ∈ st.block := hblk (by simp [hst])
      by_cases he : endsWithChar q i = true
      · have hstep : tokStep st i = ⟨st.result ++ [st.block ++ i.dropLast], none, []⟩ := by
          simp [tokStep, hst, he]
        rw [hstep]
        refine ih _ ?_ ?_
        · intro t ht
          rcases List.mem_append.1 ht with h | h
          · exact hres t h
          · right
            simp only [List.mem_singleton] at h
            subst h
            exact List.mem_append.2 (Or.inl hb)
        · intro hs
          simp at hs
      · have hstep : tokStep st i = ⟨st.result, some q, st.block ++ i ++ [spc]⟩ := by
          simp [tokStep, hst, he]
        rw [hstep]
        refine ih _ ?_ ?_
        · intro t ht
          exact hres t ht
        · intro _
          exact List.mem_append.2 (Or.inl (List.mem_append.2 (Or.inl hb)))

/-- C2 (amended): when a quoted span is opened and never closed, `safeSplit`
raises no error but silently discards the accumulated span instead of
emitting it: appending any further fragments that do not close the quote
leaves the emitted tokens unchanged, and tokenizing the concrete
unterminated input a 'b c yields just ["a"], the quoted remainder being
dropped. -/
theorem claim2_amended_unterminated :
    (∀ (frags : List (List Char)) (q : Char) (extra : List (List Char)),
        quoteState frags none = some q →
        (∀ i ∈ extra, endsWithChar q i = false) →
        safeSplitFrags (frags ++ extra) = safeSplitFrags frags) ∧
    safeSplit exC2str = ["a"] := by
  constructor
  · intro frags q extra hq hall
    unfold safeSplitFrags
    rw [List.foldl_append]
    exact foldl_tokStep_no_close extra _ q
      (by rw [foldl_tokStep_inquote]; exact hq) hall
  · decide

/-- C2 counterexample: tokenizing a 'b c, whose quoted span is never
closed, does not emit the remainder b c as a final token; the result is
just ["a"], so the claim that the remainder is emitted as one final token
is false. -/
theorem claim2_counterexample :
    safeSplit exC2str = ["a"] ∧ "b c" ∉ safeSplit exC2str ∧
      safeSplit exC2str ≠ ["a", "b c"] := by decide

/-- Witness for C2 (amended) at a concrete input. -/
theorem claim2_witness :
    safeSplitFrags (fragsC2 ++ extraC2) = safeSplitFrags fragsC2 :=
  claim2_amended_unterminated.1 fragsC2 squote extraC2 (by decide) (by decide)

/-- C3: on every well-formed command string (every opened quoted span is
closed, so the scan ends out of quotes), `safeSplit` agrees with the spec
contract `contractFrags` — splitting on single spaces outside quotes,
joining quoted fragments with the embedded single spaces preserved and the
quote characters stripped — and tokenizing run 'a b' c yields exactly
["run", "a b", "c"]. -/
theorem claim3_tokenizer_wellformed :
    (∀ s : String, quoteState (splitChar spc s.toList) none = none →
        safeSplitFrags (splitChar spc s.toList) =
          contractFrags (splitChar spc s.toList) none) ∧
    safeSplit exC3str = ["run", "a b", "c"] := by
  constructor
  · intro s _
    exact safeSplitFrags_eq_contract (splitChar spc s.toList)
  · decide

/-- Witness for C3 at the concrete input run 'a b' c. -/
theorem claim3_witness :
    quoteState (splitChar spc exC3str.toList) none = none ∧
      safeSplitFrags (splitChar spc exC3str.toList) =
        contractFrags (splitChar spc exC3str.toList) none :=
  ⟨by decide, claim3_tokenizer_wellformed.1 exC3str (by decide)⟩

/-- C9: a fragment that begins (and also ends) with a quote character opens
a quoted span that the fragment itself does not close, and such a fragment
is never emitted as its own token — every emitted token either does not
start with a quote character or contains a space, while a fragment is
space-free; tokenizing 'a' b yields the empty token list. -/
theorem claim9_fully_quoted_fragment :
    (∀ (f : List Char) (c : Char) (tl : List Char), f = c :: tl →
        isQuoteChar c = true → quoteState [f] none = some c) ∧
    (∀ (frags : List (List Char)) (f : List Char) (c : Char) (tl : List Char),
        f = c :: tl → isQuoteChar c = true → endsWithChar c f = true →
        spc ∉ f → f ∉ safeSplitFrags frags) ∧
    safeSplit exC9str = [] := by
  refine ⟨?_, ?_, by decide⟩
  · intro f c tl hf hc
    subst hf
    simp [quoteState, hc]
  · intro frags f c tl hf hc _ hsp hmem
    have := tok_result_tokens frags ⟨[], none, []⟩ (by simp) (by simp) f hmem
    rcases this with h | h
    · rw [hf] at h
      simp [headQuote, hc] at h
    · exact hsp h

/-- Witness for C9 at the concrete fully quoted fragment 'a'. -/
theorem claim9_witness :
    quoteState [[squote, 'a', squote]] none = some squote ∧
      [squote, 'a', squote] ∉ safeSplitFrags (splitChar spc exC9str.toList) :=
  ⟨(claim9_fully_quoted_fragment.1 [squote, 'a', squote] squote ['a', squote] rfl (by decide)),
   (claim9_fully_quoted_fragment.2.1 (splitChar spc exC9str.toList)
      [squote, 'a', squote] squote ['a', squote] rfl (by decide) (by decide) (by decide))⟩

theorem keep_of_mem_prepare {b : List Char} {auth : Bool} {l : List Char}
    (h : l ∈ prepareZoneFile b auth) : keepLine auth l = true := by
  rw [prepareZoneFile, List.mem_toFinset, List.mem_filter] at h
  exact h.2

/-- C4: the normalizer always drops every line beginning with the origin
directive, and with authority excluded also drops every line carrying a
space-delimited NS or SOA type token; normalizing the blob made of the
line $ORIGIN example.com., one NS record line and one A record line, with
authority excluded, yields the singleton set of the A line. -/
theorem claim4_normalizer :
    (∀ (b : List Char) (auth : Bool) (l : List Char), l ∈ prepareZoneFile b auth →
        originPre.isPrefixOf l = false ∧
          (auth = false → hasSub nsPat l = false ∧ hasSub soaPat l = false)) ∧
    prepareZoneFile blobC4 false = {aLineC4} := by
  constructor
  · intro b auth l hl
    have hk := keep_of_mem_prepare hl
    simp only [keepLine, Bool.and_eq_true, Bool.or_eq_true, Bool.not_eq_true'] at hk
    refine ⟨hk.1, ?_⟩
    rintro rfl
    rcases hk.2 with h | h
    · cases h
    · exact h
  · decide

/-- Witness for C4: the kept A line satisfies the drop conditions. -/
theorem claim4_witness :
    originPre.isPrefixOf aLineC4 = false ∧
      (false = false → hasSub nsPat aLineC4 = false ∧ hasSub soaPat aLineC4 = false) :=
  claim4_normalizer.1 blobC4 false aLineC4 (by decide)

/-- C10: the authority exclusion is a plain substring test, not a
field-position test — with authority excluded, any line containing a
space-delimited NS or SOA token is dropped whatever its record type, while
normalizing the concrete blob keeps the lines having NS at the very start
or NS/SOA at the very end (not surrounded by spaces on both sides) and
drops the TXT line whose data contains a space-delimited NS and the tabbed
NS line. -/
theorem claim10_substring_authority :
    (∀ b l : List Char, hasSub nsPat l = true ∨ hasSub soaPat l = true →
        l ∉ prepareZoneFile b false) ∧
    prepareZoneFile blobC10 false =
      {String.toList "NS y.", String.toList "d.y. NS", String.toList "s.y. SOA"} := by
  constructor
  · intro b l h hl
    have hk := keep_of_mem_prepare hl
    simp only [keepLine, Bool.and_eq_true, Bool.or_eq_true, Bool.not_eq_true'] at hk
    rcases hk.2 with h2 | h2
    · cases h2
    · rcases h with h | h
      · rw [h2.1] at h
        cases h
      · rw [h2.2] at h
        cases h
  · decide

/-- Witness for C10: the TXT line whose data contains a space-delimited NS
token is dropped even though its record type is TXT. -/
theorem claim10_witness :
    txtLineC10 ∉ prepareZoneFile blobC10 false :=
  claim10_substring_authority.1 blobC10 txtLineC10 (Or.inl (by decide))

theorem diffLoop_eq (es : List (List Char)) :
    ∀ as : List (List Char), es.Nodup → as.Nodup →
      diffLoop es as =
        (es.filter (fun r => decide (r ∉ as)), as.filter (fun r => decide (r ∉ es))) := by
  induction es with
  | nil =>
    intro as _ _
    simp [diffLoop]
  | cons r rest ih =>
    intro as hes has
    rw [List.nodup_cons] at hes
    by_cases hr : r ∈ as
    · have h1 : diffLoop (r :: rest) as = diffLoop rest (as.erase r) := by
        simp [diffLoop, hr]
      rw [h1, ih (as.erase r) hes.2 (has.erase r)]
      simp only [Prod.mk.injEq]
      constructor
      case _ =>
        rw [List.filter_cons_of_neg (by simp [hr])]
        apply List.filter_congr
        intro x hx
        have hne : x ≠ r := fun h => hes.1 (h ▸ hx)
        simp [List.mem_erase_of_ne hne]
      case _ =>
        rw [List.Nodup.erase_eq_filter has r, List.filter_filter]
        apply List.filter_congr
        intro x _
        simp only [List.mem_cons, not_or]
        rcases Decidable.em (x = r) with h | h <;> rcases Decidable.em (x ∈ rest) with h2 | h2 <;>
          simp [h, h2]
    · have h1 : diffLoop (r :: rest) as =
          (r :: (diffLoop rest as).1, (diffLoop rest as).2) := by
        simp [diffLoop, hr]
      rw [h1, ih as hes.2 has]
      simp only [Prod.mk.injEq]
      constructor
      case _ =>
        rw [List.filter_cons_of_pos (by simp [hr])]
      case _ =>
        apply List.filter_congr
        intro x hx
        have hne : x ≠ r := fun h => hr (h ▸ hx)
        simp [List.mem_cons, hne]

theorem count_map_one (f : List Char → ZMsg) (hf : Function.Injective f)
    (l : List (List Char)) (r : List Char) (h : l.Nodup) :
    (l.map f).count (f r) = if r ∈ l then 1 else 0 := by
  by_cases hr : r ∈ l
  · rw [List.count_eq_one_of_mem (h.map hf) (List.mem_map_of_mem f hr), if_pos hr]
  · rw [if_neg hr]
    rw [List.count_eq_zero]
    intro hmem
    rcases List.mem_map.1 hmem with ⟨x, hx, hfx⟩
    exact hr (hf hfx ▸ hx)

theorem missing_injective : Function.Injective ZMsg.missing :=
  fun a b h => by injection h

theorem unexpected_injective : Function.Injective ZMsg.unexpected :=
  fun a b h => by injection h

theorem count_missing_in_unexpected (l : List (List Char)) (r : List Char) :
    (l.map ZMsg.unexpected).count (ZMsg.missing r) = 0 := by
  rw [List.count_eq_zero]
  simp

theorem count_unexpected_in_missing (l : List (List Char)) (r : List Char) :
    (l.map ZMsg.missing).count (ZMsg.unexpected r) = 0 := by
  rw [List.count_eq_zero]
  simp

/-- C5: on all duplicate-free enumerations of the two normalized record
sets, `compareDomains` reports exactly one missing message per record in
expected but not actual and exactly one unexpected message per record in
actual but not expected — so the report depends only on the two sets — and
the report is empty exactly when the two sets are equal; diffing the sets
of records a, b against b, c reports a missing and c unexpected in either
insertion order. -/
theorem claim5_diff_engine :
    (∀ (e a : List Char) (auth : Bool) (eo ao : List (List Char)),
        eo.Nodup → eo.toFinset = prepareZoneFile e auth →
        ao.Nodup → ao.toFinset = prepareZoneFile a auth →
        ((∀ r : List Char, (compareDomains eo ao).count (ZMsg.missing r) =
            if r ∈ prepareZoneFile e auth \ prepareZoneFile a auth then 1 else 0) ∧
         (∀ r : List Char, (compareDomains eo ao).count (ZMsg.unexpected r) =
            if r ∈ prepareZoneFile a auth \ prepareZoneFile e auth then 1 else 0) ∧
         (compareDomains eo ao = [] ↔ prepareZoneFile e auth = prepareZoneFile a auth))) ∧
    compareDomains [aLine, bLine] [bLine, cLine] =
      [ZMsg.missing aLine, ZMsg.unexpected cLine] ∧
    compareDomains [bLine, aLine] [cLine, bLine] =
      [ZMsg.missing aLine, ZMsg.unexpected cLine] := by
  refine ⟨?_, by decide, by decide⟩
  intro e a auth eo ao hnde hte hnda hta
  have hd := diffLoop_eq eo ao hnde hnda
  have hmiss : (diffLoop eo ao).1 = eo.filter (fun r => decide (r ∉ ao)) := by rw [hd]
  have hrem : (diffLoop eo ao).2 = ao.filter (fun r => decide (r ∉ eo)) := by rw [hd]
  have hmem_e : ∀ r : List Char, r ∈ eo ↔ r ∈ prepareZoneFile e auth := by
    intro r
    rw [← hte, List.mem_toFinset]
  have hmem_a : ∀ r : List Char, r ∈ ao ↔ r ∈ prepareZoneFile a auth := by
    intro r
    rw [← hta, List.mem_toFinset]
  refine ⟨?_, ?_, ?_⟩
  · intro r
    rw [compareDomains, List.count_append, hmiss, hrem,
      count_map_one ZMsg.missing missing_injective _ r (hnde.filter _),
      count_missing_in_unexpected, Nat.add_zero]
    apply if_congr ?_ rfl rfl
    rw [List.mem_filter]
    simp only [decide_eq_true_eq, Finset.mem_sdiff]
    exact and_congr (hmem_e r) (not_congr (hmem_a r))
  · intro r
    rw [compareDomains, List.count_append, hmiss, hrem,
      count_map_one ZMsg.unexpected unexpected_injective _ r (hnda.filter _),
      count_unexpected_in_missing, Nat.zero_add]
    apply if_congr ?_ rfl rfl
    rw [List.mem_filter]
    simp only [decide_eq_true_eq, Finset.mem_sdiff]
    exact and_congr (hmem_a r) (not_congr (hmem_e r))
  · rw [compareDomains, List.append_eq_nil, List.map_eq_nil_iff, List.map_eq_nil_iff, hmiss, hrem,
      List.filter_eq_nil_iff, List.filter_eq_nil_iff]
    simp only [decide_eq_true_eq, not_not]
    constructor
    · rintro ⟨h1, h2⟩
      apply Finset.Subset.antisymm
      · intro x hx
        exact (hmem_a x).1 (h1 x ((hmem_e x).2 hx))
      · intro x hx
        exact (hmem_e x).1 (h2 x ((hmem_a x).2 hx))
    · intro heq
      constructor
      · intro x hx
        have : x ∈ prepareZoneFile a auth := by
          rw [← heq]
          exact (hmem_e x).1 hx
        exact (hmem_a x).2 this
      · intro x hx
        have : x ∈ prepareZoneFile e auth := by
          rw [heq]
          exact (hmem_a x).1 hx
        exact (hmem_e x).2 this

/-- Witness for C5 at concrete blobs and enumerations. -/
theorem claim5_witness :
    compareDomains [aLine, bLine] [bLine, cLine] = [] ↔
      prepareZoneFile eBlobC5 false = prepareZoneFile aBlobC5 false :=
  (claim5_diff_engine.1 eBlobC5 aBlobC5 false [aLine, bLine] [bLine, cLine]
    (by decide) (by decide) (by decide) (by decide)).2.2

theorem cleanupDomain_ok (r53 : Route53) (id : String)
    (h : listOk (r53.listRecords id) = true) :
    (cleanupDomain r53 id).2 = false ∧
    REvent.deleteZoneCall id ∈ (cleanupDomain r53 id).1 ∧
    (∀ j : String, REvent.fatalMsg j ∉ (cleanupDomain r53 id).1) ∧
    ((r53.deleteErr id).isSome = true → REvent.warnMsg id ∈ (cleanupDomain r53 id).1) := by
  cases hl : r53.listRecords id with
  | error e =>
    rw [hl] at h
    rw [listOk.eq_def] at h
    cases h
  | ok rr =>
    rcases hchg : r53.changeErr id with _ | ce <;>
      rcases hdel : r53.deleteErr id with _ | de <;>
      by_cases hlen : (rr.filter (fun t => decide (t ≠ "NS" ∧ t ≠ "SOA"))).length > 0 <;>
      simp [cleanupDomain, hl, hchg, hdel, hlen]

theorem runCleanup_no_abort (r53 : Route53) :
    ∀ ids : List String, (∀ id ∈ ids, listOk (r53.listRecords id) = true) →
      (runCleanupList r53 ids).2 = false := by
  intro ids
  induction ids with
  | nil => intro _; rfl
  | cons id rest ih =>
    intro h
    have h1 := cleanupDomain_ok r53 id (h id (by simp))
    simp only [runCleanupList, h1.1, Bool.false_eq_true, if_false]
    exact ih (fun j hj => h j (List.mem_cons_of_mem _ hj))

/-- C1: under successful record listings, teardown of the registered zone
handles is best-effort — the loop never aborts, every registered handle
(in particular every handle after one whose deletion calls fail) gets its
zone-deletion call, no fatal error is logged, and a failing zone deletion
is logged as a warning. -/
theorem claim1_best_effort_teardown :
    ∀ (r53 : Route53) (ids : List String),
      (∀ id ∈ ids, listOk (r53.listRecords id) = true) →
      (runCleanupList r53 ids).2 = false ∧
      (∀ id ∈ ids, REvent.deleteZoneCall id ∈ (runCleanupList r53 ids).1) ∧
      (∀ j : String, REvent.fatalMsg j ∉ (runCleanupList r53 ids).1) ∧
      (∀ id ∈ ids, (r53.deleteErr id).isSome = true →
        REvent.warnMsg id ∈ (runCleanupList r53 ids).1) := by
  intro r53 ids
  induction ids with
  | nil =>
    intro _
    exact ⟨rfl, by simp, by simp [runCleanupList], by simp⟩
  | cons id rest ih =>
    intro h
    have h1 := cleanupDomain_ok r53 id (h id (by simp))
    have ihh := ih (fun j hj => h j (List.mem_cons_of_mem _ hj))
    have hstep : runCleanupList r53 (id :: rest) =
        ((cleanupDomain r53 id).1 ++ (runCleanupList r53 rest).1,
          (runCleanupList r53 rest).2) := by
      simp only [runCleanupList, h1.1, Bool.false_eq_true, if_false]
    rw [hstep]
    refine ⟨ihh.1, ?_, ?_, ?_⟩
    · intro j hj
      rcases List.mem_cons.1 hj with rfl | hj2
      · exact List.mem_append.2 (Or.inl h1.2.1)
      · exact List.mem_append.2 (Or.inr (ihh.2.1 j hj2))
    · intro j hj
      rcases List.mem_append.1 hj with h2 | h2
      · exact h1.2.2.1 j h2
      · exact ihh.2.2.1 j h2
    · intro j hj hds
      rcases List.mem_cons.1 hj with rfl | hj2
      · exact List.mem_append.2 (Or.inl (h1.2.2.2 hds))
      · exact List.mem_append.2 (Or.inr (ihh.2.2.2 j hj2 hds))

/-- Witness for C1: with a provider whose change batches always fail and
whose deletion of zone Z1 fails, both registered handles still get their
zone-deletion call, the failure is warned about, and no abort happens. -/
theorem claim1_witness :
    (runCleanupList r53Ex ["Z1", "Z2"]).2 = false ∧
    REvent.deleteZoneCall "Z2" ∈ (runCleanupList r53Ex ["Z1", "Z2"]).1 ∧
    REvent.warnMsg "Z1" ∈ (runCleanupList r53Ex ["Z1", "Z2"]).1 := by
  have h := claim1_best_effort_teardown r53Ex ["Z1", "Z2"] (by decide)
  exact ⟨h.1, h.2.1 "Z2" (by decide), h.2.2.2 "Z1" (by decide) (by decide)⟩

/-- C6: under successful record listings, one invocation of the After-hook
teardown empties the registry without aborting, and a second invocation
immediately afterwards is a no-op whose event trace is empty — in
particular it makes no provider delete call. -/
theorem claim6_registry_drain :
    ∀ (r53 : Route53) (ids : List String),
      (∀ id ∈ ids, listOk (r53.listRecords id) = true) →
      (afterHook r53 ids).2.1 = [] ∧
      (afterHook r53 ids).2.2 = false ∧
      afterHook r53 (afterHook r53 ids).2.1 = ([], [], false) := by
  intro r53 ids h
  have hsecond : afterHook r53 ([] : List String) = ([], [], false) := by
    simp [afterHook]
  cases ids with
  | nil =>
    refine ⟨?_, ?_, ?_⟩ <;> simp [afterHook]
  | cons id rest =>
    have hab := runCleanup_no_abort r53 (id :: rest) h
    have h1 : afterHook r53 (id :: rest) =
        ((runCleanupList r53 (id :: rest)).1, [], false) := by
      simp [afterHook, hab]
    rw [h1]
    exact ⟨rfl, rfl, hsecond⟩

/-- Witness for C6 at a concrete provider and registry. -/
theorem claim6_witness :
    (afterHook r53Ex ["Z1", "Z2"]).2.1 = [] ∧
    (afterHook r53Ex ["Z1", "Z2"]).2.2 = false ∧
    afterHook r53Ex (afterHook r53Ex ["Z1", "Z2"]).2.1 = ([], [], false) :=
  claim6_registry_drain r53Ex ["Z1", "Z2"] (by decide)

/-- C7 counterexample: with zone gone.example.com confirmed absent, the
deleted-verification step resets the registry to the empty slice, so the
unrelated pending handle Zkept is no longer registered for cleanup —
contrary to the claim that every other registered handle stays pending. -/
theorem claim7_counterexample :
    (thenDomainDeleted zonesEx "gone.example.com" ["Zkept", "Zgone"]).1 = [] ∧
    "Zkept" ∉ (thenDomainDeleted zonesEx "gone.example.com" ["Zkept", "Zgone"]).1 := by
  decide

/-- C7 (amended): if the lookup still finds the zone, the step reports a
scenario failure and re-appends the found handle; if the lookup confirms
absence, the step resets the registry to the empty slice — clearing the
entry added at creation time together with every other entry — and issues
no provider delete call (its only provider call is the zone listing). -/
theorem claim7_amended_deleted_step :
    ∀ (zones : List (String × String)) (name : String) (ids : List String),
      (domainId zones name = "" →
        thenDomainDeleted zones name ids = ([], false, [REvent.listZonesCall]) ∧
        (∀ id : String,
          REvent.deleteZoneCall id ∉ (thenDomainDeleted zones name ids).2.2)) ∧
      (domainId zones name ≠ "" →
        thenDomainDeleted zones name ids =
          (ids ++ [domainId zones name], true, [REvent.listZonesCall]) ∧
        (∀ id : String,
          REvent.deleteZoneCall id ∉ (thenDomainDeleted zones name ids).2.2)) := by
  intro zones name ids
  constructor
  · intro h
    refine ⟨by simp [thenDomainDeleted, h], ?_⟩
    intro id
    simp [thenDomainDeleted, h]
  · intro h
    refine ⟨by simp [thenDomainDeleted, h], ?_⟩
    intro id
    simp [thenDomainDeleted, h]

/-- Witness for C7 (amended): both branches at concrete inputs. -/
theorem claim7_witness :
    thenDomainDeleted zonesEx "gone.example.com" ["Zkept", "Zgone"] =
      ([], false, [REvent.listZonesCall]) ∧
    thenDomainDeleted zonesEx "kept.example.com" ["Zgone"] =
      (["Zgone", "Zkept"], true, [REvent.listZonesCall]) :=
  ⟨((claim7_amended_deleted_step zonesEx "gone.example.com" ["Zkept", "Zgone"]).1
      (by decide)).1,
   ((claim7_amended_deleted_step zonesEx "kept.example.com" ["Zgone"]).2
      (by decide)).1⟩

/-- C8 counterexample: an invocation that exits non-zero with combined
output new leaves runOutput holding the previous value old, not the new
invocation's output — contrary to the claim that every invocation
overwrites RunOutput. -/
theorem claim8_counterexample :
    (whenIRun execFailC8 "cli53 rrcreate x" "old").1 = "old" ∧
    (whenIRun execFailC8 "cli53 rrcreate x" "old").1 ≠ "new" := by
  decide

/-- C8 (amended): runOutput is overwritten only by an invocation that exits
zero, in which case it holds that invocation's combined output and no
scenario failure is reported; a non-zero exit reports a scenario failure
but leaves runOutput holding the previous value. -/
theorem claim8_amended_run_output :
    ∀ (execBin : List String → RunResult) (cmd prev : String),
      ((execBin (safeSplit cmd)).failed = false →
        whenIRun execBin cmd prev = ((execBin (safeSplit cmd)).out, false)) ∧
      ((execBin (safeSplit cmd)).failed = true →
        whenIRun execBin cmd prev = (prev, true)) := by
  intro execBin cmd prev
  constructor
  · intro h
    simp [whenIRun, h]
  · intro h
    simp [whenIRun, h]

/-- Witness for C8 (amended): both branches at concrete invocations. -/
theorem claim8_witness :
    whenIRun execOkC8 "cli53 list" "old" = ("new", false) ∧
    whenIRun execFailC8 "cli53 list" "old" = ("old", true) :=
  ⟨(claim8_amended_run_output execOkC8 "cli53 list" "old").1 (by decide),
   (claim8_amended_run_output execFailC8 "cli53 list" "old").2 (by decide)⟩
